import Mathlib

/-!
Verification of the dewey vector-store engine against its specification.

The Rust sources are shallowly embedded: machine integers become `Nat`
(with `% 2^32` where a cast to `u32` occurs), `f32` scalars become exact
integers (IEEE-754 single-precision arithmetic is exact on the small
integers every concrete input here uses, and no proved property depends
on fractional scalars), fallible operations return `Option` (`none`
models an `Err` return or a panic), and hash maps become association
lists whose iteration order stands for one concrete hash order.
-/

namespace Dewey

/-- Embedding dimension, `openai.rs`: `pub const EMBED_DIM: usize = 1536`. -/
def EMBED_DIM : Nat := 1536

/-- `openai.rs`: `EmbeddingSource { filepath, meta, subset }`.
The `HashSet<String>` of meta tags is modelled as a list of tags. -/
structure EmbeddingSource where
  filepath : String
  meta : List String
  subset : Option (Nat × Nat)
deriving DecidableEq

/-- `openai.rs`: `Embedding { id: u64, source_file, data: [f32; EMBED_DIM] }`.
`data` models the fixed-length `[f32; EMBED_DIM]` array as a list of
exact integer-valued scalars of length `EMBED_DIM`. -/
structure Embedding where
  id : Nat
  source_file : EmbeddingSource
  data : List ℤ
deriving DecidableEq

/-- `hnsw.rs` `dot`: `for i in 0..EMBED_DIM { sum += a.data[i] * b.data[i] }`.
On the length-`EMBED_DIM` arrays of the source this index loop is the
pointwise product sum, written here by simultaneous recursion. -/
def dotData : List ℤ → List ℤ → ℤ
  | a :: as, b :: bs => a * b + dotData as bs
  | _, _ => 0

/-- `hnsw.rs`: `enum FilterComparator { Equal, NotEqual }`. -/
inductive FilterComparator where
  | equal : FilterComparator
  | notEqual : FilterComparator
deriving DecidableEq

/-- `hnsw.rs`: `struct Filter { comparator, value }`. -/
structure Filter where
  comparator : FilterComparator
  value : String
deriving DecidableEq

/-- `hnsw.rs` `Filter::compare`: equality or inequality of the queried
meta tag against the filter value. -/
def Filter.compare (f : Filter) (query : String) : Bool :=
  match f.comparator with
  | .equal => query == f.value
  | .notEqual => query != f.value

/-- `hnsw.rs` `HNSW::query`, lines 288-293: the conjunction
`filter_pass &= filter.compare(meta)` folded over every filter of the
query and every meta tag of the candidate, starting from `true`. -/
def filterPass (filters : List Filter) (meta : List String) : Bool :=
  filters.foldl (fun acc f => meta.foldl (fun acc2 m => acc2 && f.compare m) acc) true

/-- `hnsw.rs`: `type Graph = HashMap<u64, Vec<(u64, f32)>>`, modelled as an
association list whose order stands for one concrete hash iteration order. -/
abbrev GraphL : Type := List (Nat × List (Nat × ℤ))

/-- `hnsw.rs`: `struct HNSW { size: u32, layers: Vec<Graph> }`. -/
structure HNSW where
  size : Nat
  layers : List GraphL

/-- `hnsw.rs`: `struct Query { embedding, filters }`. -/
structure Query where
  embedding : Embedding
  filters : List Filter

/-- The mutable local state of `HNSW::query`: the `visited` and `blacklist`
bit vectors (as the sets of indices holding `true`), the `top_k`
accumulator and the visit `count`. -/
structure QState where
  visited : Finset Nat
  blacklist : Finset Nat
  topk : List (Nat × ℤ)
  count : Nat

/-- Rust `sort_by(|a, b| a.1.partial_cmp(&b.1).unwrap())` is a stable
ascending sort on the distance component; the output of a stable sort is
unique, so it is modelled by the canonical stable sort. -/
def sortByDist (l : List (Nat × ℤ)) : List (Nat × ℤ) :=
  l.insertionSort (fun a b => a.2 ≤ b.2)

/-- `hnsw.rs` `HNSW::query` lines 277-302: the `filter_map` over the popped
node's adjacency list. A blacklisted neighbor is skipped; otherwise the
neighbor's embedding is fetched and the filter fold computed; an unvisited
neighbor that passes yields `(n, 1 - dot(query, e_n))`, anything else is
blacklisted. The blacklist updates are visible to later iterations. -/
def filterCandidates (store : Nat → Embedding) (filters : List Filter) (qdata : List ℤ) :
    List (Nat × ℤ) → Finset Nat → Finset Nat → Finset Nat × List (Nat × ℤ)
  | [], _, blacklist => (blacklist, [])
  | (n, _) :: rest, visited, blacklist =>
    if n ∈ blacklist then filterCandidates store filters qdata rest visited blacklist
    else
      let e := store n
      if n ∉ visited ∧ filterPass filters e.source_file.meta = true then
        let r := filterCandidates store filters qdata rest visited blacklist
        (r.1, (n, 1 - dotData qdata e.data) :: r.2)
      else
        filterCandidates store filters qdata rest visited (insert n blacklist)

/-- `hnsw.rs` lines 315-320: when `top_k` exceeds `k` entries it is sorted
ascending and popped from the back down to `k` entries. -/
def truncTopK (k : Nat) (topk : List (Nat × ℤ)) : List (Nat × ℤ) :=
  if topk.length > k then (sortByDist topk).take k else topk

/-- `hnsw.rs` lines 305-328: the `for (neighbor, distance) in neighbors`
loop. An unvisited, unblacklisted neighbor is appended to `top_k` and the
stack while `count < ef`; `top_k` is truncated to `k`; when `count`
reaches `ef` the current `top_k` is returned early (`Sum.inr`). -/
def visitNeighbors (k ef : Nat) :
    List (Nat × ℤ) → QState → List Nat → (QState × List Nat) ⊕ List (Nat × ℤ)
  | [], st, stack => .inl (st, stack)
  | (n, d) :: rest, st, stack =>
    let pushed : QState × List Nat :=
      if n ∉ st.visited ∧ n ∉ st.blacklist ∧ st.count < ef then
        ({ st with topk := st.topk ++ [(n, d)], visited := insert n st.visited,
                   count := st.count + 1 }, n :: stack)
      else (st, stack)
    let st2 := { pushed.1 with topk := truncTopK k pushed.1.topk }
    if st2.count ≥ ef then .inr st2.topk
    else visitNeighbors k ef rest st2 pushed.2

/-- `hnsw.rs` lines 275-329: the `while !stack.is_empty()` loop of one
layer. Popping an id with no adjacency entry is the source's `unwrap`
panic (`none`); fuel exhaustion is also `none`. `Sum.inr` propagates the
early `count >= ef` return. -/
def runLayer (store : Nat → Embedding) (filters : List Filter) (qdata : List ℤ)
    (k ef : Nat) (layer : GraphL) :
    Nat → List Nat → QState → Option (QState ⊕ List (Nat × ℤ))
  | 0, _, _ => none
  | _ + 1, [], st => some (.inl st)
  | fuel + 1, current :: stack, st =>
    match List.lookup current layer with
    | none => none
    | some nbrs =>
      let fc := filterCandidates store filters qdata nbrs st.visited st.blacklist
      let cands := sortByDist fc.2
      match visitNeighbors k ef cands { st with blacklist := fc.1 } stack with
      | .inr t => some (.inr t)
      | .inl p => runLayer store filters qdata k ef layer fuel p.2 p.1

/-- `hnsw.rs` lines 271-333: the `for layer in self.layers.iter()` loop.
After each layer `top_k` is sorted and `current` becomes the closest
result so far (`unwrap` panic on an empty `top_k` is `none`); after the
last layer `top_k` is sorted once more and returned with a `false` flag,
while the early `ef` return carries a `true` flag. -/
def runLayers (store : Nat → Embedding) (filters : List Filter) (qdata : List ℤ)
    (k ef fuel : Nat) : List GraphL → Nat → QState → Option (List (Nat × ℤ) × Bool)
  | [], _, st => some (sortByDist st.topk, false)
  | layer :: rest, current, st =>
    match runLayer store filters qdata k ef layer fuel [current] st with
    | none => none
    | some (.inr t) => some (t, true)
    | some (.inl st2) =>
      let sorted := sortByDist st2.topk
      match sorted.head? with
      | none => none
      | some c => runLayers store filters qdata k ef fuel rest c.1 { st2 with topk := sorted }

/-- `hnsw.rs` `HNSW::query(query, k, ef)`. `store` abstracts the embedding
cache the query builds (`cache.get(n).unwrap()`); the result also carries
a flag telling whether the early `count >= ef` return path was taken. -/
def HNSW.queryFlag (store : Nat → Embedding) (h : HNSW) (q : Query) (k ef fuel : Nat) :
    Option (List (Embedding × ℤ) × Bool) :=
  if ef < k then none
  else
    match h.layers with
    | [] => none
    | l0 :: _ =>
      match l0.head? with
      | none => none
      | some c0 =>
        (runLayers store q.filters q.embedding.data k ef fuel h.layers c0.1
            ⟨∅, ∅, [], 0⟩).map
          (fun r => (r.1.map (fun p => (store p.1, p.2)), r.2))

/-- `HNSW::query` as the caller sees it: the returned `(Embedding, f32)`
pairs. -/
def HNSW.query (store : Nat → Embedding) (h : HNSW) (q : Query) (k ef fuel : Nat) :
    Option (List (Embedding × ℤ)) :=
  (HNSW.queryFlag store h q k ef fuel).map Prod.fst

/-- `parsing.rs`: `pub const TOKEN_LIMIT: usize = 8192`. -/
def TOKEN_LIMIT : Nat := 8192

/-- Byte length of a character sequence, matching Rust `String::len` on the
accumulated chunk. -/
def byteLen (l : List Char) : Nat := (l.map Char.utf8Size).sum

/-- `parsing.rs` `naive_split` lines 87-97: the `while i < chars.len()`
loop. When the chunk holds `TOKEN_LIMIT` bytes it is flushed and `i`
advances by one without consuming `chars[i]`; otherwise `chars[i]` is
appended and `i` advances by that character's byte length. Returns the
flushed chunks and the final unflushed chunk. -/
def naiveLoop (chars : List Char) : Nat → Nat → List Char →
    List (List Char × (Nat × Nat)) → List (List Char × (Nat × Nat)) × List Char
  | 0, _, chunk, acc => (acc, chunk)
  | fuel + 1, i, chunk, acc =>
    if h : i < chars.length then
      if byteLen chunk ≥ TOKEN_LIMIT then
        naiveLoop chars fuel (i + 1) [] (acc ++ [(chunk, (i - byteLen chunk, i))])
      else
        let c := chars.get ⟨i, h⟩
        naiveLoop chars fuel (i + c.utf8Size) (chunk ++ [c]) acc
    else (acc, chunk)

/-- `parsing.rs` `naive_split`: run the loop from `i = 0`, then append the
final non-empty chunk spanning the last `chunk.len()` bytes. -/
def naive_split (contents : List Char) : List (List Char × (Nat × Nat)) :=
  let r := naiveLoop contents contents.length 0 [] []
  if r.2.isEmpty then r.1
  else r.1 ++ [(r.2, (byteLen contents - byteLen r.2, byteLen contents))]

/-- `parsing.rs` `max_length_split` lines 120-130: as `naiveLoop` but a
chunk is also flushed once it reaches `max_length` bytes. -/
def maxLengthLoop (chars : List Char) (maxLength : Nat) : Nat → Nat → List Char →
    List (List Char × (Nat × Nat)) → List (List Char × (Nat × Nat)) × List Char
  | 0, _, chunk, acc => (acc, chunk)
  | fuel + 1, i, chunk, acc =>
    if h : i < chars.length then
      if byteLen chunk ≥ TOKEN_LIMIT ∨ byteLen chunk ≥ maxLength then
        maxLengthLoop chars maxLength fuel (i + 1) []
          (acc ++ [(chunk, (i - byteLen chunk, i))])
      else
        let c := chars.get ⟨i, h⟩
        maxLengthLoop chars maxLength fuel (i + c.utf8Size) (chunk ++ [c]) acc
    else (acc, chunk)

/-- `parsing.rs` `max_length_split`: loop plus the final-chunk push. -/
def max_length_split (contents : List Char) (maxLength : Nat) :
    List (List Char × (Nat × Nat)) :=
  let r := maxLengthLoop contents maxLength contents.length 0 [] []
  if r.2.isEmpty then r.1
  else r.1 ++ [(r.2, (byteLen contents - byteLen r.2, byteLen contents))]

/-- `parsing.rs` `separator_split` lines 51-63: the loop runs while
`i < chars.len() - separator.len()`; when the window of `separator.len()`
characters starting at `i` equals the separator, or the chunk reached
`TOKEN_LIMIT` bytes, the chunk is flushed and `i` skips the separator
length. An empty separator makes the source loop forever, hence the
positivity hypothesis. -/
def separatorLoop (chars : List Char) (sep : List Char) : Nat → Nat → List Char →
    List (List Char × (Nat × Nat)) → List (List Char × (Nat × Nat)) × List Char
  | 0, _, chunk, acc => (acc, chunk)
  | fuel + 1, i, chunk, acc =>
    if h : i < chars.length - byteLen sep then
      if (chars.drop i).take (byteLen sep) = sep ∨ byteLen chunk ≥ TOKEN_LIMIT then
        separatorLoop chars sep fuel (i + byteLen sep) []
          (acc ++ [(chunk, (i - byteLen chunk, i))])
      else
        let c := chars.get ⟨i, by omega⟩
        separatorLoop chars sep fuel (i + c.utf8Size) (chunk ++ [c]) acc
    else (acc, chunk)

/-- `parsing.rs` `separator_split`: loop plus the final-chunk push; `none`
models the divergence on an empty separator. -/
def separator_split (contents : List Char) (sep : List Char) :
    Option (List (List Char × (Nat × Nat))) :=
  if 0 < byteLen sep then
    let r := separatorLoop contents sep contents.length 0 [] []
    some (if r.2.isEmpty then r.1
      else r.1 ++ [(r.2, (byteLen contents - byteLen r.2, byteLen contents))])
  else none

/-- `dbio.rs`: `pub const BLOCK_SIZE: usize = 1024`. -/
def BLOCK_SIZE : Nat := 1024

/-- Rust `slice::chunks(k)`: split a list into consecutive chunks of `k`
elements, the last possibly shorter. (`chunks(0)` panics in Rust; the
`0` case here is never used, `BLOCK_SIZE` being positive.) -/
def chunksOfGo (k : Nat) : Nat → List α → List (List α)
  | _, [] => []
  | 0, l => [l]
  | fuel + 1, x :: xs => ((x :: xs).take k) :: chunksOfGo k fuel ((x :: xs).drop k)

/-- With positive `k` each step consumes at least one element, so fuel
`l.length` runs the recursion to the end. -/
def chunksOf (k : Nat) (l : List α) : List (List α) := chunksOfGo k l.length l

/-- `dbio.rs` `sync_index` lines 99-143: assign dense ids `0..N`, partition
into `BLOCK_SIZE` chunks, and record one directory entry
`(e.id as u32, filepath, block_number)` per embedding of each block.
Returns the numbered blocks and the directory entry list passed to
`write_directory`. -/
def sync_index (embeddings : List Embedding) :
    List (Nat × List Embedding) × List (Nat × String × Nat) :=
  let embs := embeddings.enum.map (fun p => { p.2 with id := p.1 })
  let blocks := (chunksOf BLOCK_SIZE embs).enum
  let directory :=
    blocks.flatMap (fun b => b.2.map (fun e => (e.id % 2 ^ 32, e.source_file.filepath, b.1)))
  (blocks, directory)

/-- `HashMap::insert` on an association list: the new binding shadows and
removes any previous binding of the key. -/
def insertAssoc [BEq κ] (m : List (κ × ν)) (k : κ) (v : ν) : List (κ × ν) :=
  (k, v) :: m.filter (fun p => !(p.1 == k))

/-- `dbio.rs`: `struct Directory { file_map, id_map, file_id_map }`. -/
structure Directory where
  file_map : List (String × Nat)
  id_map : List (Nat × Nat)
  file_id_map : List (String × Nat)

/-- `dbio.rs` `get_directory` lines 431-445: build the three maps by
inserting each parsed `(id, filepath, block)` entry in order. -/
def mkDirectory (entries : List (Nat × String × Nat)) : Directory :=
  entries.foldl
    (fun d e =>
      { id_map := insertAssoc d.id_map e.1 e.2.2,
        file_map := insertAssoc d.file_map e.2.1 e.2.2,
        file_id_map := insertAssoc d.file_id_map e.2.1 e.1 })
    ⟨[], [], []⟩

/-- Modelled from the spec: `crates/core/src/hnsw.rs` (`HNSW::remove_node`)
is not under `src/`. Per §4.6, deletion removes the id from every layer's
key set and from every remaining adjacency list. -/
def removeNodeG (g : GraphL) (id : Nat) : GraphL :=
  (g.filter (fun p => !(p.1 == id))).map
    (fun p => (p.1, p.2.filter (fun q => !(q.1 == id))))

/-- Modelled from the spec: removal applied to every layer (§4.6). -/
def HNSW.removeNode (h : HNSW) (id : Nat) : HNSW :=
  ⟨h.size, h.layers.map (fun g => removeNodeG g id)⟩

/-- The on-disk state `update_file_embeddings` touches: the directory file
(as its parsed entry list), the block files, and the serialized index. -/
structure DBState where
  directoryEntries : List (Nat × String × Nat)
  blocks : Nat → Option (List Embedding)
  index : HNSW

/-- `dbio.rs` lines 474-481: the meta set captured from the last matching
record of the target block (each match overwrites `meta`). -/
def capturedMeta (blockEmbeddings : List Embedding) (filepath : String) : List String :=
  blockEmbeddings.foldl
    (fun m e => if e.source_file.filepath == filepath then e.source_file.meta else m) []

/-- `dbio.rs` lines 493-495: `e.id = id_start + i` over the freshly
embedded records. -/
def assignIds (idStart : Nat) (l : List Embedding) : List Embedding :=
  l.enum.map (fun p => { p.2 with id := idStart + p.1 })

/-- `dbio.rs` `update_file_embeddings` lines 450-509. `id_start` is
`directory.id_map.len() + 1`. A filepath absent from `file_map` returns
`Ok` with nothing touched; otherwise the target block is rewritten with
the non-matching records kept and the re-embedded records appended, the
removed ids are dropped from the index, and the index is re-serialized.
`embedder` abstracts `embed_bulk`; `none` models an `Err` return. -/
def update_file_embeddings (embedder : EmbeddingSource → List Embedding)
    (filepath : String) (st : DBState) : Option DBState :=
  let directory := mkDirectory st.directoryEntries
  let idStart := directory.id_map.length + 1
  match List.lookup filepath directory.file_map with
  | none => some st
  | some targetBlock =>
    match st.blocks targetBlock with
    | none => none
    | some blockEmbeddings =>
      let meta := capturedMeta blockEmbeddings filepath
      let toDelete :=
        (blockEmbeddings.filter (fun e => e.source_file.filepath == filepath)).map
          (fun e => e.id)
      let kept := blockEmbeddings.filter (fun e => !(e.source_file.filepath == filepath))
      let newEmbeddings := assignIds idStart (embedder ⟨filepath, meta, none⟩)
      some { directoryEntries := st.directoryEntries,
             blocks := fun b =>
               if b = targetBlock then some (kept ++ newEmbeddings) else st.blocks b,
             index := toDelete.foldl HNSW.removeNode st.index }

/-- `message.rs`: `enum RequestPayload { Query { k, query, filters }, Edit { filepath } }`. -/
inductive RequestPayload where
  | queryPayload (k : Nat) (query : String) (filters : List String)
  | edit (filepath : String)

/-- `lib.rs` `ServerState::reindex` lines 114-132: an `Edit` payload runs
`update_file_embeddings` and answers the body `{}` on `Ok`, an error
object on `Err`; a non-`Edit` payload is an error (`none`). -/
def ServerState.reindex (embedder : EmbeddingSource → List Embedding)
    (payload : RequestPayload) (st : DBState) : Option (DBState × String) :=
  match payload with
  | .edit fp =>
    match update_file_embeddings embedder fp st with
    | some st2 => some (st2, "\x7b\x7d")
    | none => some (st, "\x7berror\x7d")
  | _ => none

/-- `cache.rs` `EmbeddingCache`: the LRU list (front first, standing for
the intrusive doubly linked list plus `node_map`), the cached embeddings,
the dirty set, the id-to-block directory and `max_size`. -/
structure CacheState where
  lru : List Nat
  embeddings : Nat → Option Embedding
  dirty : Finset Nat
  directory : Nat → Option Nat
  maxSize : Nat

/-- `cache.rs` `EmbeddingCache::new`: panics when `max_size < BLOCK_SIZE`,
else starts empty with the directory read from disk. -/
def EmbeddingCache.new (directory : Nat → Option Nat) (maxSize : Nat) :
    Option CacheState :=
  if maxSize < BLOCK_SIZE then none
  else some ⟨[], fun _ => none, ∅, directory, maxSize⟩

/-- `cache.rs` `load_embedding_block` lines 258-276, one iteration: evict
the LRU tail while at capacity (`unwrap` panic on an empty list is
`none`), detach an already-present node, then push the record to the
front. The `u32` cast of `e.id` is the `% 2^32`. -/
def insertOne (st : CacheState) (e : Embedding) : Option CacheState :=
  (if st.lru.length ≥ st.maxSize then
    match st.lru.getLast? with
    | none => none
    | some popped =>
      some { st with
               lru := st.lru.dropLast,
               embeddings := fun n => if n = popped then none else st.embeddings n }
  else some st).bind
    (fun st1 =>
      let id := e.id % 2 ^ 32
      let st2 := if id ∈ st1.lru then { st1 with lru := st1.lru.erase id } else st1
      some { st2 with
               lru := id :: st2.lru,
               embeddings := fun n => if n = id then some e else st2.embeddings n })

/-- `cache.rs` `load_embedding_block`: look the id up in the directory
(not-found error if absent), read its block from disk, and insert every
record of the block. -/
def load_embedding_block (blocks : Nat → Option (List Embedding))
    (embedding_id : Nat) (st : CacheState) : Option CacheState :=
  match st.directory embedding_id with
  | none => none
  | some blockNumber =>
    match blocks blockNumber with
    | none => none
    | some es => es.foldlM insertOne st

/-- `cache.rs` `EmbeddingCache::get` lines 289-327: a present clean id is
returned from memory; a present dirty id reloads its block and clears its
dirty mark; an absent id loads its block. The returned flag records
whether a block load occurred. Afterwards the id's LRU node is moved to
the front (`unwrap` panic if untracked is `none`); the final
`and_modify` writes back the value just read and is the identity. -/
def EmbeddingCache.get (blocks : Nat → Option (List Embedding))
    (embedding_id : Nat) (st : CacheState) : Option (Embedding × CacheState × Bool) :=
  (match st.embeddings embedding_id with
   | some cached =>
     if embedding_id ∈ st.dirty then
       (load_embedding_block blocks embedding_id st).bind (fun st1 =>
         let st2 := { st1 with dirty := st1.dirty.erase embedding_id }
         match st2.embeddings embedding_id with
         | none => none
         | some e => some (e, st2, true))
     else some (cached, st, false)
   | none =>
     (load_embedding_block blocks embedding_id st).bind (fun st1 =>
       match st1.embeddings embedding_id with
       | none => none
       | some e => some (e, st1, true))).bind
    (fun r =>
      if embedding_id ∈ r.2.1.lru then
        some (r.1, { r.2.1 with lru := embedding_id :: r.2.1.lru.erase embedding_id },
          r.2.2)
      else none)

/-- A sequence of `EmbeddingCache::get` calls, collecting the per-call
load flags. -/
def runAccesses (blocks : Nat → Option (List Embedding)) :
    List Nat → CacheState → Option (CacheState × List Bool)
  | [], st => some (st, [])
  | id :: rest, st =>
    (EmbeddingCache.get blocks id st).bind (fun r =>
      (runAccesses blocks rest r.2.1).map (fun q => (q.1, r.2.2 :: q.2)))

/-- The working set of an access sequence: the distinct blocks holding the
requested ids. -/
def workingBlocks (directory : Nat → Option Nat) (accesses : List Nat) : List Nat :=
  (accesses.filterMap directory).dedup

/-- A 32-bit big-endian byte encoding, `u32::to_be_bytes`. -/
def u32be (n : Nat) : List Nat :=
  [n / 2 ^ 24 % 256, n / 2 ^ 16 % 256, n / 2 ^ 8 % 256, n % 256]

/-- A 64-bit big-endian byte encoding. -/
def u64be (n : Nat) : List Nat :=
  [n / 2 ^ 56 % 256, n / 2 ^ 48 % 256, n / 2 ^ 40 % 256, n / 2 ^ 32 % 256,
   n / 2 ^ 24 % 256, n / 2 ^ 16 % 256, n / 2 ^ 8 % 256, n % 256]

/-- Modelled from the spec: `serialization.rs` is not under `src/`; per
§4.1 a variable-length field such as a `String` serializes as a 64-bit
big-endian length prefix followed by its bytes. This is what
`bin/server.rs` line 125 (`stream.write(&response.to_bytes())`) actually
sends; `body` is the UTF-8 JSON response body. -/
def serverResponseBytes (body : List Nat) : List Nat := u64be body.length ++ body

/-- `bin/server.rs` lines 121-123: the frame `handle_client` builds — a
4-byte big-endian length then the body — but never writes. -/
def intendedResponseFrame (body : List Nat) : List Nat := u32be body.length ++ body

/-- `u32::from_be_bytes` over four bytes. -/
def fromBE4 (bytes : List Nat) : Nat :=
  bytes.foldl (fun acc b => acc * 256 + b) 0

/-- `lib.rs` `DeweyClient::send` lines 167-172: read exactly 4 bytes,
interpret them as a big-endian length, then read exactly that many body
bytes. -/
def clientReadFrame (bytes : List Nat) : Option (Nat × List Nat) :=
  if bytes.length < 4 then none
  else
    let len := fromBE4 (bytes.take 4)
    let rest := bytes.drop 4
    if rest.length < len then none else some (len, rest.take len)

/-- A unit vector along the first axis, written by its nonzero prefix: by
`dotData_append_replicate`, padding any of these vectors with zeros to
the full `EMBED_DIM` length changes no dot product, so every concrete
trace below also arises from genuine length-`EMBED_DIM` arrays. -/
def basisData : List ℤ := [1]

/-- A vector along the negated first axis (nonzero prefix); its dot
product with `basisData` is minus one. -/
def negBasisData : List ℤ := [-1]

/-- A unit vector along the second axis (nonzero prefix); orthogonal to
`basisData`. -/
def basis2Data : List ℤ := [0, 1]

def cexE0 : Embedding := ⟨0, ⟨"/a", [], none⟩, basisData⟩

def cexE1 : Embedding := ⟨1, ⟨"/b", [], none⟩, basis2Data⟩

def cexE2 : Embedding := ⟨2, ⟨"/c", [], none⟩, negBasisData⟩

/-- A three-node store: node 0 at distance 0 from the query below, node 1
at distance 1, node 2 at distance 2. -/
def cexStore : Nat → Embedding :=
  fun n => if n = 0 then cexE0 else if n = 1 then cexE1 else cexE2

/-- A single-layer graph: 0 - 1 - 2 in a chain. -/
def cexLayer : GraphL := [(0, [(1, 1)]), (1, [(0, 1), (2, 2)]), (2, [(1, 2)])]

def cexHNSW : HNSW := ⟨3, [cexLayer]⟩

def cexQuery : Query := ⟨⟨0, ⟨"/q", [], none⟩, basisData⟩, []⟩

def sampleIndex : HNSW := ⟨1, [[(0, [])]]⟩

def sampleRecord : Embedding := ⟨0, ⟨"f", ["m"], none⟩, []⟩

/-- A one-file store: directory entry `(0, "f", 0)` and block 0 holding the
single record of file "f". -/
def sampleState : DBState :=
  ⟨[(0, "f", 0)], fun b => if b = 0 then some [sampleRecord] else none, sampleIndex⟩

def sampleEmbedder : EmbeddingSource → List Embedding := fun s => [⟨99, s, []⟩]

/-- A store whose directory ids are not dense: ids 0 and 5 over two files
in block 0. -/
def c9State : DBState :=
  ⟨[(0, "f", 0), (5, "g", 0)],
   fun b =>
     if b = 0 then some [⟨0, ⟨"f", [], none⟩, []⟩, ⟨5, ⟨"g", [], none⟩, []⟩] else none,
   sampleIndex⟩

/-- An embedder producing three chunks for any source. -/
def c9Embedder : EmbeddingSource → List Embedding :=
  fun s => [⟨0, s, []⟩, ⟨0, s, []⟩, ⟨0, s, []⟩]

def cacheDir : Nat → Option Nat := fun n => if n ≤ 1 then some 0 else none

def cacheBlocks : Nat → Option (List Embedding) :=
  fun b =>
    if b = 0 then some [⟨0, ⟨"f", [], none⟩, []⟩, ⟨1, ⟨"g", [], none⟩, []⟩] else none

/-- The per-block record lists of `cacheBlocks`, as a total function. -/
def cacheData : Nat → List Embedding :=
  fun b =>
    if b = 0 then [⟨0, ⟨"f", [], none⟩, []⟩, ⟨1, ⟨"g", [], none⟩, []⟩] else []

def syncInput : List Embedding := [⟨7, ⟨"a", [], none⟩, []⟩, ⟨8, ⟨"b", [], none⟩, []⟩]

/-- The state `update_file_embeddings sampleEmbedder "f"` produces from
`sampleState`: the lone record of file "f" replaced by its re-embedding
with id 2, node 0 removed from the graph, directory entries unchanged. -/
def sampleUpdatedState : DBState :=
  ⟨[(0, "f", 0)],
   fun b => if b = 0 then some [⟨2, ⟨"f", ["m"], none⟩, []⟩] else sampleState.blocks b,
   ⟨1, [[]]⟩⟩

theorem foldl_and_eq_all (f : Filter) (meta : List String) (acc : Bool) :
    meta.foldl (fun acc2 m => acc2 && f.compare m) acc = (acc && meta.all (fun m => f.compare m)) := by
  induction meta generalizing acc with
  | nil => simp
  | cons m rest ih => simp [List.foldl_cons, ih, Bool.and_assoc]

theorem filterPass_eq_all (filters : List Filter) (meta : List String) :
    filterPass filters meta = filters.all (fun f => meta.all (fun m => f.compare m)) := by
  unfold filterPass
  suffices h : ∀ acc : Bool,
      filters.foldl (fun acc f => meta.foldl (fun acc2 m => acc2 && f.compare m) acc) acc
        = (acc && filters.all (fun f => meta.all (fun m => f.compare m))) by
    simpa using h true
  induction filters with
  | nil => simp
  | cons f rest ih =>
    intro acc
    rw [List.foldl_cons, foldl_and_eq_all, ih, List.all_cons, ← Bool.and_assoc]

theorem filterPass_iff (filters : List Filter) (meta : List String) :
    filterPass filters meta = true ↔ ∀ f ∈ filters, ∀ m ∈ meta, f.compare m = true := by
  rw [filterPass_eq_all]
  simp [List.all_eq_true]

theorem compare_equal_iff (v m : String) :
    (Filter.mk .equal v).compare m = true ↔ m = v := by
  simp [Filter.compare]

theorem compare_notEqual_iff (v m : String) :
    (Filter.mk .notEqual v).compare m = true ↔ m ≠ v := by
  simp [Filter.compare]

/-- Claim C1: in `HNSW.query`, a candidate embedding passes the filter set
iff for every filter `f` of the query and every meta tag `m` of the
candidate, `f.compare(m)` is true; consequently an `eq v` filter admits a
candidate only when all of its meta tags equal `v`, and an `ne v` filter
only when all of its meta tags differ from `v`. -/
theorem C1_filter_semantics (filters : List Filter) (meta : List String) :
    (filterPass filters meta = true ↔ ∀ f ∈ filters, ∀ m ∈ meta, f.compare m = true)
    ∧ (∀ v, Filter.mk .equal v ∈ filters → filterPass filters meta = true →
        ∀ m ∈ meta, m = v)
    ∧ (∀ v, Filter.mk .notEqual v ∈ filters → filterPass filters meta = true →
        ∀ m ∈ meta, m ≠ v) := by
  refine ⟨filterPass_iff filters meta, ?_, ?_⟩
  · intro v hf hp m hm
    exact (compare_equal_iff v m).mp (((filterPass_iff filters meta).mp hp) _ hf m hm)
  · intro v hf hp m hm
    exact (compare_notEqual_iff v m).mp (((filterPass_iff filters meta).mp hp) _ hf m hm)

theorem C1_filter_semantics_witness :
    filterPass [Filter.mk .notEqual "c"] ["a", "b"] = true
    ∧ (∀ m ∈ (["a", "b"] : List String), m ≠ "c") :=
  ⟨by decide,
   (C1_filter_semantics [Filter.mk .notEqual "c"] ["a", "b"]).2.2 "c" (by decide)
     (by decide)⟩

/-- Claim C8: a candidate whose meta set is empty passes every filter set
vacuously (the AND-fold over zero tags is true), so in `HNSW.query` the
neighbor `filter_map` never excludes it by filtering: a non-blacklisted,
unvisited neighbor carrying no meta tags always becomes a candidate with
its query distance. -/
theorem C8_empty_meta_passes (filters : List Filter) (store : Nat → Embedding)
    (qdata : List ℤ) (n : Nat) (d : ℤ) (visited blacklist : Finset Nat)
    (hbl : n ∉ blacklist) (hv : n ∉ visited)
    (hmeta : (store n).source_file.meta = []) :
    filterPass filters [] = true
    ∧ filterCandidates store filters qdata [(n, d)] visited blacklist
        = (blacklist, [(n, 1 - dotData qdata (store n).data)]) := by
  have hpass : filterPass filters ((store n).source_file.meta) = true := by
    rw [hmeta, filterPass_iff]
    intro f _ m hm
    exact absurd hm (List.not_mem_nil m)
  refine ⟨by rw [← hmeta]; exact hpass, ?_⟩
  simp [filterCandidates, hbl, hv, hpass]

theorem C8_empty_meta_passes_witness :
    filterPass [Filter.mk .equal "v"] [] = true
    ∧ filterCandidates (fun _ => ⟨0, ⟨"f", [], none⟩, []⟩) [Filter.mk .equal "v"]
        [] [(5, 1)] ∅ ∅ = (∅, [(5, 1 - dotData [] [])]) :=
  C8_empty_meta_passes [Filter.mk .equal "v"] (fun _ => ⟨0, ⟨"f", [], none⟩, []⟩)
    [] 5 1 ∅ ∅ (by decide) (by decide) rfl

/-- Claim C3 (code bug): chunking is claimed loss-bounded — concatenating
the emitted chunk texts should equal the file content minus only deleted
separator bytes — but the splitters drop a character at each flush:
`max_length_split` on "abcde" with `max_length = 2` deletes no separator
yet emits "ab" and "de", losing the byte "c"; `separator_split` on "abc"
with separator "b" loses the trailing "c". -/
theorem C3_chunk_loss (ss : List (List Char × (Nat × Nat)))
    (hsep : separator_split "abc".toList "b".toList = some ss) :
    max_length_split "abcde".toList 2
      = [("ab".toList, (0, 2)), ("de".toList, (3, 5))]
    ∧ (max_length_split "abcde".toList 2).foldr (fun p acc => p.1 ++ acc) []
        ≠ "abcde".toList
    ∧ ss.foldr (fun p acc => p.1 ++ acc) [] ≠ "ac".toList := by
  have hss : ss = [("a".toList, (0, 1))] := by
    have h0 : separator_split "abc".toList "b".toList = some [("a".toList, (0, 1))] := by
      decide
    rw [h0] at hsep
    exact (Option.some_inj.mp hsep).symm
  subst hss
  refine ⟨by decide, by decide, by decide⟩

theorem C3_chunk_loss_witness :
    separator_split "abc".toList "b".toList = some [("a".toList, (0, 1))]
    ∧ (max_length_split "abcde".toList 2
        = [("ab".toList, (0, 2)), ("de".toList, (3, 5))]
      ∧ (max_length_split "abcde".toList 2).foldr (fun p acc => p.1 ++ acc) []
          ≠ "abcde".toList
      ∧ [("a".toList, ((0 : Nat), (1 : Nat)))].foldr (fun p acc => p.1 ++ acc) []
          ≠ "ac".toList) :=
  ⟨by decide, C3_chunk_loss [("a".toList, (0, 1))] (by decide)⟩

/-- Claim C7 (code bug): the server is supposed to answer with a 4-byte
big-endian length prefix followed by the body — the frame `handle_client`
itself builds and the client reader expects — but line 125 writes
`response.to_bytes()`, the String codec with its 64-bit length prefix.
On the body `\x7b\x7d` the wire bytes differ from the intended frame and
the client reader recovers length 0 and an empty body. -/
theorem C7_response_frame_mismatch :
    serverResponseBytes [123, 125] ≠ intendedResponseFrame [123, 125]
    ∧ serverResponseBytes [123, 125] = [0, 0, 0, 0, 0, 0, 0, 2, 123, 125]
    ∧ clientReadFrame (serverResponseBytes [123, 125]) = some (0, [])
    ∧ clientReadFrame (intendedResponseFrame [123, 125]) = some (2, [123, 125]) := by
  refine ⟨by decide, by decide, by decide, by decide⟩

theorem assignIds_map_id (start : Nat) (l : List Embedding) :
    (assignIds start l).map (fun e => e.id) = List.range' start l.length := by
  unfold assignIds
  rw [List.map_map]
  have h1 : ((fun e : Embedding => e.id) ∘
      (fun p : Nat × Embedding => ({ p.2 with id := start + p.1 } : Embedding)))
      = (fun n => start + n) ∘ Prod.fst := rfl
  rw [h1, ← List.map_map, List.enum_map_fst, ← List.range'_eq_map_range]

theorem mem_assignIds_id_ge (start : Nat) (l : List Embedding) :
    ∀ e ∈ assignIds start l, start ≤ e.id := by
  intro e he
  unfold assignIds at he
  rw [List.mem_map] at he
  obtain ⟨p, _, hp⟩ := he
  rw [← hp]
  exact Nat.le_add_right start p.1

theorem lookup_eq_none_of_forall_ne {k : Nat} {m : List (Nat × Nat)}
    (h : ∀ p ∈ m, p.1 ≠ k) : List.lookup k m = none := by
  induction m with
  | nil => rfl
  | cons a t ih =>
    have hne : ¬ (k == a.1) = true := by
      simp only [beq_iff_eq]
      exact fun hk => (h a (List.mem_cons_self a t)) hk.symm
    calc List.lookup k (a :: t) = List.lookup k ((a.1, a.2) :: t) := rfl
      _ = List.lookup k t := by
          rw [List.lookup_cons]
          simp [hne]
      _ = none := ih (fun p hp => h p (List.mem_cons_of_mem a hp))

/-- Claim C10: when `update_file_embeddings` is called with a filepath
absent from the directory's `file_map`, it returns `Ok` with the block
files, directory entries and graph all untouched, and
`ServerState.reindex` answers the success body `{}`. -/
theorem C10_reindex_missing_file (embedder : EmbeddingSource → List Embedding)
    (st : DBState) (fp : String)
    (h : List.lookup fp (mkDirectory st.directoryEntries).file_map = none) :
    update_file_embeddings embedder fp st = some st
    ∧ ServerState.reindex embedder (.edit fp) st = some (st, "\x7b\x7d") := by
  have h1 : update_file_embeddings embedder fp st = some st := by
    simp [update_file_embeddings, h]
  exact ⟨h1, by simp [ServerState.reindex, h1]⟩

theorem C10_reindex_missing_file_witness :
    update_file_embeddings sampleEmbedder "zzz" sampleState = some sampleState
    ∧ ServerState.reindex sampleEmbedder (.edit "zzz") sampleState
        = some (sampleState, "\x7b\x7d") :=
  C10_reindex_missing_file sampleEmbedder sampleState "zzz" rfl

/-- Claim C4 counterexample: the pre-update directory holds the single id
0, so ids starting at (maximum id) + 1 would start at 1, yet the code
assigns the first new id `id_map.len() + 1 = 2`. -/
theorem C4_counterexample :
    (mkDirectory sampleState.directoryEntries).id_map = [(0, 0)]
    ∧ ((update_file_embeddings sampleEmbedder "f" sampleState).map
        (fun st2 => (st2.blocks 0).map (fun es => es.map (fun e => e.id))))
      = some (some [2])
    ∧ (2 : Nat) ≠ 0 + 1 :=
  ⟨rfl, rfl, by decide⟩

/-- Claim C4 (amended): `update_file_embeddings` removes every record of
the target block whose source filepath matches, re-embeds the file with
the captured meta, appends the new records to the block, and assigns them
consecutive ids starting at (number of entries in the pre-update
directory id map) + 1 — not at (maximum pre-update id) + 1. -/
theorem C4_update_semantics (embedder : EmbeddingSource → List Embedding)
    (st : DBState) (fp : String) (b : Nat) (es : List Embedding)
    (hb : List.lookup fp (mkDirectory st.directoryEntries).file_map = some b)
    (hes : st.blocks b = some es) :
    ((update_file_embeddings embedder fp st).map (fun st2 => st2.blocks b)
      = some (some ((es.filter (fun e => !(e.source_file.filepath == fp)))
          ++ assignIds ((mkDirectory st.directoryEntries).id_map.length + 1)
              (embedder ⟨fp, capturedMeta es fp, none⟩))))
    ∧ (assignIds ((mkDirectory st.directoryEntries).id_map.length + 1)
          (embedder ⟨fp, capturedMeta es fp, none⟩)).map (fun e => e.id)
        = List.range' ((mkDirectory st.directoryEntries).id_map.length + 1)
            (embedder ⟨fp, capturedMeta es fp, none⟩).length := by
  refine ⟨?_, assignIds_map_id _ _⟩
  simp [update_file_embeddings, hb, hes]

theorem C4_update_semantics_witness :
    (((update_file_embeddings sampleEmbedder "f" sampleState).map
        (fun st2 => st2.blocks 0))
      = some (some (([sampleRecord].filter
            (fun e => !(e.source_file.filepath == "f")))
          ++ assignIds ((mkDirectory sampleState.directoryEntries).id_map.length + 1)
              (sampleEmbedder ⟨"f", capturedMeta [sampleRecord] "f", none⟩))))
    ∧ (assignIds ((mkDirectory sampleState.directoryEntries).id_map.length + 1)
          (sampleEmbedder ⟨"f", capturedMeta [sampleRecord] "f", none⟩)).map
            (fun e => e.id)
        = List.range' ((mkDirectory sampleState.directoryEntries).id_map.length + 1)
            (sampleEmbedder ⟨"f", capturedMeta [sampleRecord] "f", none⟩).length :=
  C4_update_semantics sampleEmbedder sampleState "f" 0 [sampleRecord] rfl rfl

/-- Claim C9 counterexample: with non-dense directory ids 0 and 5 over two
files, re-embedding file "f" into three chunks assigns ids 3, 4, 5 —
and id 5 is present in the (unchanged) post-update directory, refuting
the claimed absence of the newly assigned ids. -/
theorem C9_counterexample :
    ((update_file_embeddings c9Embedder "f" c9State).map
        (fun st2 => ((st2.blocks 0).map (fun es => es.map (fun e => e.id)),
          List.lookup 5 (mkDirectory st2.directoryEntries).id_map)))
      = some (some [5, 3, 4, 5], some 0) :=
  rfl

/-- Claim C9 (amended): a successful `update_file_embeddings` call never
modifies the directory — the entries, and hence the three maps parsed
from them, are identical before and after — and provided every
pre-update directory id is at most the number of `id_map` entries (as
after a full ingest, whose ids are dense from 0), the newly assigned ids
of the re-embedded file are absent from the post-update directory. -/
theorem C9_directory_frame (embedder : EmbeddingSource → List Embedding)
    (st : DBState) (fp : String) (st2 : DBState)
    (h : update_file_embeddings embedder fp st = some st2) :
    st2.directoryEntries = st.directoryEntries
    ∧ mkDirectory st2.directoryEntries = mkDirectory st.directoryEntries
    ∧ ((∀ p ∈ (mkDirectory st.directoryEntries).id_map,
          p.1 ≤ (mkDirectory st.directoryEntries).id_map.length) →
        ∀ es, ∀ e ∈ assignIds ((mkDirectory st.directoryEntries).id_map.length + 1)
            (embedder ⟨fp, capturedMeta es fp, none⟩),
          List.lookup e.id (mkDirectory st2.directoryEntries).id_map = none) := by
  have hframe : st2.directoryEntries = st.directoryEntries := by
    unfold update_file_embeddings at h
    dsimp only at h
    split at h
    · exact (Option.some_inj.mp h) ▸ rfl
    · split at h
      · exact absurd h (by simp)
      · rw [← Option.some_inj.mp h]
  refine ⟨hframe, by rw [hframe], ?_⟩
  intro hbound es e he
  rw [hframe]
  have hge := mem_assignIds_id_ge _ _ e he
  exact lookup_eq_none_of_forall_ne
    (fun p hp => Nat.ne_of_lt (Nat.lt_of_le_of_lt (hbound p hp) (by omega)))

theorem C9_directory_frame_witness :
    sampleUpdatedState.directoryEntries = sampleState.directoryEntries
    ∧ List.lookup 2 (mkDirectory sampleUpdatedState.directoryEntries).id_map = none :=
  ⟨(C9_directory_frame sampleEmbedder sampleState "f" sampleUpdatedState rfl).1,
   (C9_directory_frame sampleEmbedder sampleState "f" sampleUpdatedState rfl).2.2
     (by decide) [sampleRecord] ⟨2, ⟨"f", ["m"], none⟩, []⟩ (by decide)⟩

theorem enumFrom_map_pair (n : Nat) (l : List α) (f : α → β) :
    (l.map f).enumFrom n = (l.enumFrom n).map (fun p => (p.1, f p.2)) := by
  induction l generalizing n with
  | nil => rfl
  | cons x xs ih => simp [List.enumFrom_cons, ih]

theorem enumFrom_enumFrom (l : List α) (n : Nat) :
    (l.enumFrom n).enumFrom n = (l.enumFrom n).map (fun p => (p.1, p)) := by
  induction l generalizing n with
  | nil => rfl
  | cons x xs ih => simp [List.enumFrom_cons, ih]

theorem mem_enumFrom_bounds {l : List α} {n : Nat} {p : Nat × α}
    (h : p ∈ l.enumFrom n) : n ≤ p.1 ∧ p.1 < n + l.length := by
  induction l generalizing n with
  | nil => cases h
  | cons x xs ih =>
    rw [List.enumFrom_cons, List.mem_cons] at h
    rcases h with h | h
    · subst h
      simp
    · have := ih h
      simp only [List.length_cons]
      omega

theorem chunksOfGo_join (k : Nat) (hk : 0 < k) :
    ∀ (fuel : Nat) (l : List α), l.length ≤ fuel → (chunksOfGo k fuel l).flatten = l := by
  intro fuel
  induction fuel with
  | zero =>
    intro l hl
    rw [List.length_eq_zero.mp (Nat.le_zero.mp hl)]
    rfl
  | succ fuel ih =>
    intro l hl
    match l with
    | [] => rfl
    | x :: xs =>
      rw [chunksOfGo, List.flatten_cons, ih _ (by simp at hl ⊢; omega)]
      exact List.take_append_drop k (x :: xs)

theorem enumFrom_div_map {k c0 : Nat} (A : List α) (f : Nat → α → β)
    (hA : A.length ≤ k) :
    ((A.enumFrom (c0 * k)).map (fun p => f (p.1 / k) p.2)) = A.map (f c0) := by
  have h1 : ∀ p ∈ A.enumFrom (c0 * k), f (p.1 / k) p.2 = f c0 p.2 := by
    intro p hp
    have hb := mem_enumFrom_bounds hp
    have hdiv : p.1 / k = c0 :=
      Nat.div_eq_of_lt_le hb.1 (by rw [Nat.succ_mul]; omega)
    rw [hdiv]
  calc (A.enumFrom (c0 * k)).map (fun p => f (p.1 / k) p.2)
      = (A.enumFrom (c0 * k)).map (fun p => f c0 p.2) := List.map_congr_left h1
    _ = ((A.enumFrom (c0 * k)).map Prod.snd).map (f c0) := by rw [List.map_map]; rfl
    _ = A.map (f c0) := by rw [List.enumFrom_map_snd]

theorem chunksOfGo_entries (k : Nat) (hk : 0 < k) (f : Nat → α → β) :
    ∀ (fuel : Nat) (l : List α) (c0 : Nat), l.length ≤ fuel →
    ((chunksOfGo k fuel l).enumFrom c0).flatMap (fun b => b.2.map (f b.1))
      = (l.enumFrom (c0 * k)).map (fun p => f (p.1 / k) p.2) := by
  intro fuel
  induction fuel with
  | zero =>
    intro l c0 hl
    rw [List.length_eq_zero.mp (Nat.le_zero.mp hl)]
    rfl
  | succ fuel ih =>
    intro l c0 hl
    match l with
    | [] => rfl
    | x :: xs =>
      rw [chunksOfGo, List.enumFrom_cons, List.flatMap_cons]
      have hrest := ih ((x :: xs).drop k) (c0 + 1) (by simp at hl ⊢; omega)
      rw [hrest]
      have hsplit : (x :: xs).enumFrom (c0 * k)
          = ((x :: xs).take k ++ (x :: xs).drop k).enumFrom (c0 * k) := by
        rw [List.take_append_drop]
      rw [hsplit, List.enumFrom_append, List.map_append]
      congr 1
      · exact (enumFrom_div_map _ f (by
          simp only [List.length_take]
          omega)).symm
      · by_cases hlen : k ≤ (x :: xs).length
        · have : ((x :: xs).take k).length = k := by
            rw [List.length_take]
            omega
          rw [this]
          have : c0 * k + k = (c0 + 1) * k := by ring
          rw [this]
        · have hdrop : (x :: xs).drop k = [] := by
            rw [List.drop_eq_nil_iff]
            omega
          rw [hdrop]
          rfl

theorem sync_index_directory (embeddings : List Embedding) :
    (sync_index embeddings).2
      = embeddings.enum.map
          (fun p => (p.1 % 2 ^ 32, p.2.source_file.filepath, p.1 / BLOCK_SIZE)) := by
  have h1 := chunksOfGo_entries BLOCK_SIZE (by norm_num [BLOCK_SIZE])
    (fun bi (e : Embedding) => (e.id % 2 ^ 32, e.source_file.filepath, bi))
    (embeddings.enum.map (fun p => { p.2 with id := p.1 })).length
    (embeddings.enum.map (fun p => { p.2 with id := p.1 })) 0 (Nat.le_refl _)
  rw [Nat.zero_mul] at h1
  have he : embeddings.enum = List.enumFrom 0 embeddings := rfl
  rw [he, enumFrom_map_pair, enumFrom_enumFrom, List.map_map, List.map_map] at h1
  exact h1

/-- Claim C5: after a full ingest over `N` input embeddings, the `(id,
filepath)` pairs recorded in the directory are exactly those derived from
the inputs with dense ids `0..N`, the ids form the contiguous range
`[0, N)`, every entry's block number is its id divided by `BLOCK_SIZE`,
and the written blocks partition the re-numbered embeddings in id
order. -/
theorem C5_sync_directory (embeddings : List Embedding)
    (hN : embeddings.length ≤ 2 ^ 32) :
    ((sync_index embeddings).2.map (fun en => (en.1, en.2.1))
        = (List.range embeddings.length).zip
            (embeddings.map (fun e => e.source_file.filepath)))
    ∧ ((sync_index embeddings).2.map (fun en => en.1)
        = List.range embeddings.length)
    ∧ (∀ en ∈ (sync_index embeddings).2, en.2.2 = en.1 / BLOCK_SIZE)
    ∧ ((sync_index embeddings).1.map Prod.snd).flatten
        = embeddings.enum.map (fun p => { p.2 with id := p.1 }) := by
  have hdir := sync_index_directory embeddings
  have hmod : ∀ p ∈ embeddings.enum, p.1 % 2 ^ 32 = p.1 := by
    intro p hp
    have hb := mem_enumFrom_bounds hp
    exact Nat.mod_eq_of_lt (by omega)
  refine ⟨?_, ?_, ?_, ?_⟩
  · rw [hdir, List.map_map]
    have h2 : ((fun en : Nat × String × Nat => (en.1, en.2.1)) ∘
        (fun p : Nat × Embedding =>
          (p.1 % 2 ^ 32, p.2.source_file.filepath, p.1 / BLOCK_SIZE)))
        = fun p : Nat × Embedding => (p.1 % 2 ^ 32, p.2.source_file.filepath) := rfl
    have h3 : ∀ p ∈ embeddings.enum,
        (fun p : Nat × Embedding => (p.1 % 2 ^ 32, p.2.source_file.filepath)) p
          = (fun p : Nat × Embedding => (p.1, p.2.source_file.filepath)) p := by
      intro p hp
      dsimp only
      rw [hmod p hp]
    rw [h2, List.map_congr_left h3, List.zip_map_right, ← List.enum_eq_zip_range]
    rfl
  · rw [hdir, List.map_map]
    have h2 : ((fun en : Nat × String × Nat => en.1) ∘
        (fun p : Nat × Embedding =>
          (p.1 % 2 ^ 32, p.2.source_file.filepath, p.1 / BLOCK_SIZE)))
        = fun p : Nat × Embedding => p.1 % 2 ^ 32 := rfl
    rw [h2, List.map_congr_left hmod]
    exact List.enum_map_fst embeddings
  · intro en hen
    rw [hdir] at hen
    rw [List.mem_map] at hen
    obtain ⟨p, hp, hpe⟩ := hen
    rw [← hpe]
    dsimp only
    rw [hmod p hp]
  · have hsnd : ((sync_index embeddings).1.map Prod.snd)
        = chunksOf BLOCK_SIZE
            (embeddings.enum.map (fun p => ({ p.2 with id := p.1 } : Embedding))) :=
      List.enumFrom_map_snd 0 _
    rw [hsnd]
    exact chunksOfGo_join BLOCK_SIZE (by norm_num [BLOCK_SIZE]) _ _ (Nat.le_refl _)

theorem C5_sync_directory_witness :
    ((sync_index syncInput).2.map (fun en => (en.1, en.2.1))
        = (List.range syncInput.length).zip
            (syncInput.map (fun e => e.source_file.filepath)))
    ∧ ((sync_index syncInput).2.map (fun en => en.1) = List.range syncInput.length)
    ∧ (∀ en ∈ (sync_index syncInput).2, en.2.2 = en.1 / BLOCK_SIZE)
    ∧ ((sync_index syncInput).1.map Prod.snd).flatten
        = syncInput.enum.map (fun p => { p.2 with id := p.1 }) :=
  C5_sync_directory syncInput (by decide)

theorem dotData_nil_right (a : List ℤ) : dotData a [] = 0 := by
  cases a <;> rfl

theorem dotData_nil_left (b : List ℤ) : dotData [] b = 0 := by
  cases b <;> rfl

theorem dotData_replicate_left (n : Nat) (l : List ℤ) :
    dotData (List.replicate n 0) l = 0 := by
  induction n generalizing l with
  | zero => cases l <;> rfl
  | succ n ih =>
    cases l with
    | nil => rfl
    | cons y ys => simp [List.replicate, dotData, ih]

theorem dotData_replicate_right (n : Nat) (l : List ℤ) :
    dotData l (List.replicate n 0) = 0 := by
  induction l generalizing n with
  | nil => rfl
  | cons x xs ih =>
    cases n with
    | zero => rfl
    | succ n => simp [List.replicate, dotData, ih]

/-- Padding two vectors with zeros leaves their dot product unchanged, so
the short stored vectors of the concrete inputs stand for their
zero-padded `EMBED_DIM`-length forms. -/
theorem dotData_append_replicate (a : List ℤ) :
    ∀ (b : List ℤ) (n m : Nat),
    dotData (a ++ List.replicate n 0) (b ++ List.replicate m 0) = dotData a b := by
  induction a with
  | nil =>
    intro b n m
    rw [List.nil_append, dotData_replicate_left, dotData_nil_left]
  | cons x xs ih =>
    intro b n m
    cases b with
    | nil =>
      rw [List.nil_append, dotData_nil_right]
      cases m with
      | zero => rw [List.replicate, dotData_nil_right]
      | succ m =>
        simp only [List.cons_append, List.replicate, dotData, dotData_replicate_right]
        ring
    | cons y ys =>
      simp only [List.cons_append, dotData]
      rw [show (xs.append (List.replicate n 0)) = xs ++ List.replicate n 0 from rfl,
        show (ys.append (List.replicate m 0)) = ys ++ List.replicate m 0 from rfl,
        ih ys n m]

/-- Claim C2 counterexample: with `k = ef = 2` on a three-node chain the
early `count >= ef` return fires right after pushing a closer neighbor,
returning distances `[1, 0]` — not sorted ascending — so the claim that
both return paths are sorted is false. -/
theorem C2_counterexample :
    (HNSW.queryFlag cexStore cexHNSW cexQuery 2 2 10).map
        (fun r => (r.1.map Prod.snd, r.2)) = some ([1, 0], true)
    ∧ ¬ ((1 : ℤ) ≤ 0) :=
  ⟨by decide, by decide⟩

theorem filterCandidates_dist (store : Nat → Embedding) (filters : List Filter)
    (qdata : List ℤ) :
    ∀ (nbrs : List (Nat × ℤ)) (visited blacklist : Finset Nat),
    ∀ p ∈ (filterCandidates store filters qdata nbrs visited blacklist).2,
      p.2 = 1 - dotData qdata (store p.1).data := by
  intro nbrs
  induction nbrs with
  | nil =>
    intro v bl p hp
    simp [filterCandidates] at hp
  | cons nb rest ih =>
    intro v bl p hp
    obtain ⟨n, d⟩ := nb
    simp only [filterCandidates] at hp
    split at hp
    · exact ih v bl p hp
    · split at hp
      · simp only [List.mem_cons] at hp
        rcases hp with hp | hp
        · rw [hp]
        · exact ih v bl p hp
      · exact ih v (insert n bl) p hp

theorem mem_sortByDist {l : List (Nat × ℤ)} {p : Nat × ℤ} :
    p ∈ sortByDist l ↔ p ∈ l := by
  unfold sortByDist
  exact List.mem_insertionSort _

theorem length_sortByDist (l : List (Nat × ℤ)) :
    (sortByDist l).length = l.length := by
  unfold sortByDist
  exact List.length_insertionSort _ l

theorem sorted_sortByDist (l : List (Nat × ℤ)) :
    (sortByDist l).Pairwise (fun a b => a.2 ≤ b.2) := by
  letI ht : IsTotal (Nat × ℤ) (fun a b => a.2 ≤ b.2) := ⟨fun a b => le_total a.2 b.2⟩
  letI htr : IsTrans (Nat × ℤ) (fun a b => a.2 ≤ b.2) :=
    ⟨fun a b c hab hbc => le_trans hab hbc⟩
  exact List.sorted_insertionSort _ l

theorem truncTopK_subset (k : Nat) (l : List (Nat × ℤ)) :
    ∀ p ∈ truncTopK k l, p ∈ l := by
  intro p hp
  unfold truncTopK at hp
  split at hp
  · exact mem_sortByDist.mp (List.mem_of_mem_take hp)
  · exact hp

theorem truncTopK_length (k : Nat) (l : List (Nat × ℤ)) (h : l.length ≤ k + 1) :
    (truncTopK k l).length ≤ k := by
  unfold truncTopK
  split
  · rw [List.length_take]
    omega
  · omega

theorem visitNeighbors_inv (store : Nat → Embedding) (qdata : List ℤ) (k ef : Nat) :
    ∀ (cands : List (Nat × ℤ)) (st : QState) (stack : List Nat),
    st.topk.length ≤ k →
    (∀ p ∈ st.topk, p.2 = 1 - dotData qdata (store p.1).data) →
    (∀ p ∈ cands, p.2 = 1 - dotData qdata (store p.1).data) →
    (match visitNeighbors k ef cands st stack with
     | .inl q => q.1.topk.length ≤ k
         ∧ ∀ p ∈ q.1.topk, p.2 = 1 - dotData qdata (store p.1).data
     | .inr t => t.length ≤ k
         ∧ ∀ p ∈ t, p.2 = 1 - dotData qdata (store p.1).data) := by
  intro cands
  induction cands with
  | nil =>
    intro st stack hlen hst _
    simp only [visitNeighbors]
    exact ⟨hlen, hst⟩
  | cons nb rest ih =>
    intro st stack hlen hst hcands
    obtain ⟨n, d⟩ := nb
    have hpush : ∀ (tk : List (Nat × ℤ)),
        (tk = st.topk ++ [(n, d)] ∨ tk = st.topk) →
        ((truncTopK k tk).length ≤ k
          ∧ ∀ p ∈ truncTopK k tk, p.2 = 1 - dotData qdata (store p.1).data) := by
      intro tk htk
      rcases htk with htk | htk <;> subst htk
      · refine ⟨truncTopK_length k _ (by simp; omega), ?_⟩
        intro p hp
        have hp2 := truncTopK_subset k _ p hp
        simp only [List.mem_append, List.mem_singleton] at hp2
        rcases hp2 with hp2 | hp2
        · exact hst p hp2
        · rw [hp2]
          exact hcands (n, d) (List.mem_cons_self _ _)
      · refine ⟨truncTopK_length k _ (by omega), ?_⟩
        intro p hp
        exact hst p (truncTopK_subset k _ p hp)
    by_cases hC : n ∉ st.visited ∧ n ∉ st.blacklist ∧ st.count < ef
    · have heq : visitNeighbors k ef ((n, d) :: rest) st stack
          = (if st.count + 1 ≥ ef
             then Sum.inr (truncTopK k (st.topk ++ [(n, d)]))
             else visitNeighbors k ef rest
               { st with topk := truncTopK k (st.topk ++ [(n, d)]),
                         visited := insert n st.visited, count := st.count + 1 }
               (n :: stack)) := by
        simp only [visitNeighbors, if_pos hC]
      rw [heq]
      have h2 := hpush (st.topk ++ [(n, d)]) (Or.inl rfl)
      by_cases hef : st.count + 1 ≥ ef
      · rw [if_pos hef]
        exact h2
      · rw [if_neg hef]
        exact ih _ _ h2.1 h2.2 (fun p hp => hcands p (List.mem_cons_of_mem _ hp))
    · have heq : visitNeighbors k ef ((n, d) :: rest) st stack
          = (if st.count ≥ ef
             then Sum.inr (truncTopK k st.topk)
             else visitNeighbors k ef rest
               { st with topk := truncTopK k st.topk } stack) := by
        simp only [visitNeighbors, if_neg hC]
      rw [heq]
      have h2 := hpush st.topk (Or.inr rfl)
      by_cases hef : st.count ≥ ef
      · rw [if_pos hef]
        exact h2
      · rw [if_neg hef]
        exact ih _ _ h2.1 h2.2 (fun p hp => hcands p (List.mem_cons_of_mem _ hp))

theorem runLayer_inv (store : Nat → Embedding) (filters : List Filter)
    (qdata : List ℤ) (k ef : Nat) (layer : GraphL) :
    ∀ (fuel : Nat) (stack : List Nat) (st : QState),
    st.topk.length ≤ k →
    (∀ p ∈ st.topk, p.2 = 1 - dotData qdata (store p.1).data) →
    (match runLayer store filters qdata k ef layer fuel stack st with
     | none => True
     | some (.inl st2) => st2.topk.length ≤ k
         ∧ ∀ p ∈ st2.topk, p.2 = 1 - dotData qdata (store p.1).data
     | some (.inr t) => t.length ≤ k
         ∧ ∀ p ∈ t, p.2 = 1 - dotData qdata (store p.1).data) := by
  intro fuel
  induction fuel with
  | zero =>
    intro stack st _ _
    simp [runLayer]
  | succ fuel ih =>
    intro stack st hlen hst
    match stack with
    | [] =>
      simp only [runLayer]
      exact ⟨hlen, hst⟩
    | current :: stack =>
      simp only [runLayer]
      cases hlk : List.lookup current layer with
      | none => trivial
      | some nbrs =>
        dsimp only
        have hcands : ∀ p ∈ sortByDist (filterCandidates store filters qdata nbrs
            st.visited st.blacklist).2, p.2 = 1 - dotData qdata (store p.1).data :=
          fun p hp => filterCandidates_dist store filters qdata nbrs _ _ p
            (mem_sortByDist.mp hp)
        have hv := visitNeighbors_inv store qdata k ef
          (sortByDist (filterCandidates store filters qdata nbrs
            st.visited st.blacklist).2)
          { st with blacklist := (filterCandidates store filters qdata nbrs
              st.visited st.blacklist).1 }
          stack hlen hst hcands
        cases hvn : visitNeighbors k ef (sortByDist (filterCandidates store filters
            qdata nbrs st.visited st.blacklist).2)
            { st with blacklist := (filterCandidates store filters qdata nbrs
                st.visited st.blacklist).1 } stack with
        | inr t =>
          rw [hvn] at hv
          exact hv
        | inl p =>
          rw [hvn] at hv
          exact ih p.2 p.1 hv.1 hv.2

theorem runLayers_inv (store : Nat → Embedding) (filters : List Filter)
    (qdata : List ℤ) (k ef fuel : Nat) :
    ∀ (layers : List GraphL) (current : Nat) (st : QState),
    st.topk.length ≤ k →
    (∀ p ∈ st.topk, p.2 = 1 - dotData qdata (store p.1).data) →
    (match runLayers store filters qdata k ef fuel layers current st with
     | none => True
     | some (t, flag) => t.length ≤ k
         ∧ (∀ p ∈ t, p.2 = 1 - dotData qdata (store p.1).data)
         ∧ (flag = false → t.Pairwise (fun a b => a.2 ≤ b.2))) := by
  intro layers
  induction layers with
  | nil =>
    intro current st hlen hst
    simp only [runLayers]
    exact ⟨by rw [length_sortByDist]; exact hlen,
      fun p hp => hst p (mem_sortByDist.mp hp),
      fun _ => sorted_sortByDist st.topk⟩
  | cons layer rest ih =>
    intro current st hlen hst
    simp only [runLayers]
    have hr := runLayer_inv store filters qdata k ef layer fuel [current] st hlen hst
    cases hrl : runLayer store filters qdata k ef layer fuel [current] st with
    | none => trivial
    | some r =>
      rw [hrl] at hr
      cases r with
      | inr t => exact ⟨hr.1, hr.2, fun hf => absurd hf (by simp)⟩
      | inl st2 =>
        dsimp only
        cases hh : (sortByDist st2.topk).head? with
        | none => trivial
        | some c =>
          exact ih c.1 { st2 with topk := sortByDist st2.topk }
            (by rw [length_sortByDist]; exact hr.1)
            (fun p hp => hr.2 p (mem_sortByDist.mp hp))

/-- Claim C2 (amended): for `ef >= k`, `HNSW.query` returns at most `k`
pairs and every returned distance equals `1 - dot(q.embedding, e)` for
the stored vector `e` of the returned embedding, on both return paths;
the results are sorted ascending by distance on the normal path, but the
early return taken when the visit count reaches `ef` may be unsorted. -/
theorem C2_query_shape (store : Nat → Embedding) (h : HNSW) (q : Query)
    (k ef fuel : Nat) (res : List (Embedding × ℤ)) (flag : Bool)
    (hkef : k ≤ ef)
    (hrun : HNSW.queryFlag store h q k ef fuel = some (res, flag)) :
    res.length ≤ k
    ∧ (∀ p ∈ res, p.2 = 1 - dotData q.embedding.data p.1.data
        ∧ ∃ n, p.1 = store n)
    ∧ (flag = false → (res.map Prod.snd).Pairwise (· ≤ ·)) := by
  unfold HNSW.queryFlag at hrun
  rw [if_neg (by omega)] at hrun
  cases hL : h.layers with
  | nil =>
    rw [hL] at hrun
    exact absurd hrun (by simp)
  | cons l0 rest =>
    rw [hL] at hrun
    dsimp only at hrun
    cases hh : l0.head? with
    | none =>
      rw [hh] at hrun
      exact absurd hrun (by simp)
    | some c0 =>
      rw [hh] at hrun
      dsimp only at hrun
      have hinv := runLayers_inv store q.filters q.embedding.data k ef fuel
        (l0 :: rest) c0.1 ⟨∅, ∅, [], 0⟩ (by simp) (by simp)
      cases hr : runLayers store q.filters q.embedding.data k ef fuel
          (l0 :: rest) c0.1 ⟨∅, ∅, [], 0⟩ with
      | none =>
        rw [hr] at hrun
        exact absurd hrun (by simp)
      | some r =>
        rw [hr] at hrun
        rw [hr] at hinv
        rw [Option.map_some', Option.some_inj] at hrun
        have hres := congrArg Prod.fst hrun
        have hflag := congrArg Prod.snd hrun
        dsimp only at hres hflag
        subst hres hflag
        refine ⟨by rw [List.length_map]; exact hinv.1, ?_, ?_⟩
        · intro p hp
          rw [List.mem_map] at hp
          obtain ⟨a, ha, hpa⟩ := hp
          refine ⟨?_, a.1, by rw [← hpa]⟩
          rw [← hpa]
          exact hinv.2.1 a ha
        · intro hf
          have hs := hinv.2.2 hf
          rw [List.map_map]
          exact List.Pairwise.map _ (fun a b hab => hab) hs

theorem C2_query_shape_witness :
    HNSW.queryFlag cexStore cexHNSW cexQuery 2 2 10
      = some ([(cexE1, 1), (cexE0, 0)], true)
    ∧ ([(cexE1, (1 : ℤ)), (cexE0, 0)].length ≤ 2
        ∧ (∀ p ∈ [(cexE1, (1 : ℤ)), (cexE0, 0)],
            p.2 = 1 - dotData cexQuery.embedding.data p.1.data
              ∧ ∃ n, p.1 = cexStore n)
        ∧ (true = false
            → ([(cexE1, (1 : ℤ)), (cexE0, 0)].map Prod.snd).Pairwise (· ≤ ·))) :=
  ⟨by decide,
   C2_query_shape cexStore cexHNSW cexQuery 2 2 10 [(cexE1, 1), (cexE0, 0)] true
     (by decide) (by decide)⟩

theorem mem_cons_erase {l : List Nat} (hn : l.Nodup) {a : Nat} (ha : a ∈ l) :
    ∀ n, n ∈ a :: l.erase a ↔ n ∈ l := by
  intro n
  rw [List.mem_cons, hn.mem_erase_iff]
  constructor
  · rintro (rfl | ⟨_, hnl⟩)
    · exact ha
    · exact hnl
  · intro hnl
    by_cases hna : n = a
    · exact Or.inl hna
    · exact Or.inr ⟨hna, hnl⟩

theorem length_cons_erase {l : List Nat} {a : Nat} (ha : a ∈ l) :
    (a :: l.erase a).length = l.length := by
  rw [List.length_cons, List.length_erase_of_mem ha]
  have : 0 < l.length := List.length_pos.mpr (List.ne_nil_of_mem ha)
  omega

theorem filter_insert_of_not_mem {l : List Nat} {L : Finset Nat} {b : Nat}
    (hb : b ∉ l) :
    l.filter (fun x => decide (x ∉ L)) = l.filter (fun x => decide (x ∉ insert b L)) := by
  apply List.filter_congr
  intro x hx
  have hxb : x ≠ b := fun h => hb (h ▸ hx)
  simp [Finset.mem_insert, hxb]

theorem filter_insert_length {l : List Nat} {L : Finset Nat} {b : Nat}
    (hl : l.Nodup) (hbl : b ∈ l) (hbL : b ∉ L) :
    (l.filter (fun x => decide (x ∉ L))).length
      = (l.filter (fun x => decide (x ∉ insert b L))).length + 1 := by
  induction l with
  | nil => cases hbl
  | cons a t ih =>
    rcases List.mem_cons.mp hbl with hab | hbt
    · subst hab
      have hbt2 : b ∉ t := (List.nodup_cons.mp hl).1
      rw [List.filter_cons_of_pos (by simpa using hbL),
        List.filter_cons_of_neg (by simp),
        ← filter_insert_of_not_mem hbt2]
      simp
    · have hat : a ≠ b := by
        rintro rfl
        exact (List.nodup_cons.mp hl).1 hbt
      have ih2 := ih (List.nodup_cons.mp hl).2 hbt
      by_cases haL : a ∈ L
      · rw [List.filter_cons_of_neg (by simp [haL]),
          List.filter_cons_of_neg (by simp [haL]), ih2]
      · rw [List.filter_cons_of_pos (by simp [haL]),
          List.filter_cons_of_pos (by simp [Finset.mem_insert, hat, haL]),
          List.length_cons, List.length_cons, ih2]

theorem foldlM_insertOne_fresh :
    ∀ (es : List Embedding) (st : CacheState),
    st.lru.Nodup →
    (∀ e ∈ es, (e.id % 2 ^ 32) ∉ st.lru) →
    ((es.map (fun e => e.id % 2 ^ 32)).Nodup) →
    st.lru.length + es.length ≤ st.maxSize →
    ∃ st2, es.foldlM insertOne st = some st2
      ∧ st2.lru = (es.map (fun e => e.id % 2 ^ 32)).reverse ++ st.lru
      ∧ (∀ n, (st2.embeddings n).isSome
          ↔ (n ∈ es.map (fun e => e.id % 2 ^ 32) ∨ (st.embeddings n).isSome))
      ∧ st2.dirty = st.dirty ∧ st2.directory = st.directory
      ∧ st2.maxSize = st.maxSize := by
  intro es
  induction es with
  | nil =>
    intro st h1 _ _ _
    exact ⟨st, rfl, by simp, fun n => by simp, rfl, rfl, rfl⟩
  | cons e rest ih =>
    intro st hnodup hfresh hkeys hlen
    have hid : (e.id % 2 ^ 32) ∉ st.lru := hfresh e (List.mem_cons_self _ _)
    have hnoev : ¬ (st.lru.length ≥ st.maxSize) := by
      simp only [List.length_cons] at hlen
      omega
    have h1 : insertOne st e
        = some { st with
                   lru := (e.id % 2 ^ 32) :: st.lru,
                   embeddings := fun n =>
                     if n = e.id % 2 ^ 32 then some e else st.embeddings n } := by
      unfold insertOne
      rw [if_neg hnoev]
      simp only [Option.some_bind]
      rw [if_neg hid]
    rw [List.foldlM_cons, h1]
    have hkeys2 := List.nodup_cons.mp hkeys
    obtain ⟨st2, hrun, hlru, hsome, hdirty, hdir, hmax⟩ :=
      ih { st with
             lru := (e.id % 2 ^ 32) :: st.lru,
             embeddings := fun n =>
               if n = e.id % 2 ^ 32 then some e else st.embeddings n }
        (List.nodup_cons.mpr ⟨hid, hnodup⟩)
        (by
          intro e2 he2
          simp only [List.mem_cons]
          push_neg
          refine ⟨fun hkey => hkeys2.1 ?_, hfresh e2 (List.mem_cons_of_mem _ he2)⟩
          have hm : e2.id % 2 ^ 32 ∈ rest.map (fun e3 => e3.id % 2 ^ 32) :=
            List.mem_map_of_mem _ he2
          rw [hkey] at hm
          exact hm)
        hkeys2.2
        (by
          simp only [List.length_cons] at hlen ⊢
          omega)
    refine ⟨st2, by simpa using hrun, ?_, ?_, hdirty, hdir, hmax⟩
    · rw [hlru]
      simp [List.append_assoc]
    · intro n
      rw [hsome n]
      dsimp only
      rw [List.map_cons, List.mem_cons]
      by_cases hne : n = e.id % 2 ^ 32
      · rw [if_pos hne]
        simp only [Option.isSome_some]
        tauto
      · rw [if_neg hne]
        tauto

theorem get_cached (blocks : Nat → Option (List Embedding)) (id : Nat)
    (st : CacheState) (hdirty : st.dirty = ∅)
    (hsome : (st.embeddings id).isSome) (hlru : id ∈ st.lru) :
    ∃ e, st.embeddings id = some e
      ∧ EmbeddingCache.get blocks id st
        = some (e, { st with lru := id :: st.lru.erase id }, false) := by
  obtain ⟨e, he⟩ := Option.isSome_iff_exists.mp hsome
  refine ⟨e, he, ?_⟩
  have hnd : id ∉ st.dirty := by
    rw [hdirty]
    exact Finset.not_mem_empty id
  unfold EmbeddingCache.get
  rw [he]
  dsimp only
  rw [if_neg hnd]
  simp only [Option.some_bind]
  rw [if_pos hlru]

theorem get_load (blocks : Nat → Option (List Embedding)) (id : Nat)
    (st : CacheState) (b : Nat) (es : List Embedding)
    (hdirty : st.dirty = ∅) (hnone : st.embeddings id = none)
    (hdir : st.directory id = some b) (hblocks : blocks b = some es)
    (hnodup : st.lru.Nodup)
    (hfresh : ∀ e ∈ es, (e.id % 2 ^ 32) ∉ st.lru)
    (hkeys : (es.map (fun e => e.id % 2 ^ 32)).Nodup)
    (hlen : st.lru.length + es.length ≤ st.maxSize)
    (hmem : id ∈ es.map (fun e => e.id % 2 ^ 32)) :
    ∃ e st2, EmbeddingCache.get blocks id st = some (e, st2, true)
      ∧ (∀ n, (st2.embeddings n).isSome
          ↔ (n ∈ es.map (fun e2 => e2.id % 2 ^ 32) ∨ (st.embeddings n).isSome))
      ∧ st2.dirty = ∅ ∧ st2.directory = st.directory ∧ st2.maxSize = st.maxSize
      ∧ st2.lru.Nodup
      ∧ (∀ n, n ∈ st2.lru
          ↔ (n ∈ es.map (fun e2 => e2.id % 2 ^ 32) ∨ n ∈ st.lru))
      ∧ st2.lru.length = st.lru.length + es.length := by
  obtain ⟨st1, hload, hlru1, hsome1, hdirty1, hdir1, hmax1⟩ :=
    foldlM_insertOne_fresh es st hnodup hfresh hkeys hlen
  have hload2 : load_embedding_block blocks id st = some st1 := by
    unfold load_embedding_block
    rw [hdir]
    dsimp only
    rw [hblocks]
    exact hload
  have hfreshkey : ∀ x ∈ es.map (fun e2 => e2.id % 2 ^ 32), x ∉ st.lru := by
    intro x hx
    rw [List.mem_map] at hx
    obtain ⟨e2, he2, hxe⟩ := hx
    exact hxe ▸ hfresh e2 he2
  have hnodup1 : st1.lru.Nodup := by
    rw [hlru1, List.nodup_append]
    refine ⟨List.nodup_reverse.mpr hkeys, hnodup, ?_⟩
    intro x hx
    exact hfreshkey x (List.mem_reverse.mp hx)
  have hmem1 : id ∈ st1.lru := by
    rw [hlru1, List.mem_append, List.mem_reverse]
    exact Or.inl hmem
  have hsome_id : (st1.embeddings id).isSome := (hsome1 id).mpr (Or.inl hmem)
  obtain ⟨e, he⟩ := Option.isSome_iff_exists.mp hsome_id
  refine ⟨e, { st1 with lru := id :: st1.lru.erase id }, ?_, ?_, ?_, ?_, ?_, ?_, ?_, ?_⟩
  · unfold EmbeddingCache.get
    rw [hnone]
    dsimp only
    rw [hload2]
    simp only [Option.some_bind]
    rw [he]
    dsimp only
    simp only [Option.some_bind]
    rw [if_pos hmem1]
  · exact hsome1
  · rw [hdirty1, hdirty]
  · exact hdir1
  · exact hmax1
  · exact List.nodup_cons.mpr ⟨hnodup1.not_mem_erase, hnodup1.erase _⟩
  · intro n
    rw [mem_cons_erase hnodup1 hmem1 n, hlru1, List.mem_append, List.mem_reverse]
  · rw [length_cons_erase hmem1, hlru1, List.length_append, List.length_reverse,
      List.length_map]
    omega

theorem runAccesses_cons (blocks : Nat → Option (List Embedding))
    (id : Nat) (rest : List Nat) (st : CacheState) :
    runAccesses blocks (id :: rest) st
      = (EmbeddingCache.get blocks id st).bind (fun r =>
          (runAccesses blocks rest r.2.1).map (fun q => (q.1, r.2.2 :: q.2))) := rfl

theorem card_insert_sdiff {b : Nat} {S L : Finset Nat} (hbL : b ∉ L) :
    (insert b S \ L).card = (S \ insert b L).card + 1 := by
  have h1 : insert b S \ L = insert b (S \ L) := by
    ext x
    simp only [Finset.mem_sdiff, Finset.mem_insert]
    constructor
    · rintro ⟨hx | hx, hxL⟩
      · exact Or.inl hx
      · exact Or.inr ⟨hx, hxL⟩
    · rintro (rfl | ⟨hx, hxL⟩)
      · exact ⟨Or.inl rfl, hbL⟩
      · exact ⟨Or.inr hx, hxL⟩
  have h2 : S \ insert b L = (S \ L).erase b := by
    ext x
    simp only [Finset.mem_sdiff, Finset.mem_insert, Finset.mem_erase]
    tauto
  rw [h1, h2]
  by_cases hbS : b ∈ S \ L
  · rw [Finset.insert_eq_self.mpr hbS, Finset.card_erase_of_mem hbS]
    have hpos := Finset.card_pos.mpr ⟨b, hbS⟩
    omega
  · rw [Finset.card_insert_of_not_mem hbS, Finset.erase_eq_of_not_mem hbS]

theorem runAccesses_loads
    (blocks : Nat → Option (List Embedding)) (dir : Nat → Option Nat)
    (data : Nat → List Embedding) (m : Nat)
    (hco : ∀ b, ∀ e ∈ data b, dir (e.id % 2 ^ 32) = some b)
    (hkeysAll : ∀ b, ((data b).map (fun e => e.id % 2 ^ 32)).Nodup) :
    ∀ (accesses : List Nat), ∀ (L : Finset Nat) (st : CacheState),
    (∀ b ∈ accesses.filterMap dir, blocks b = some (data b)) →
    (∀ i ∈ accesses, ∃ b, dir i = some b
        ∧ i ∈ (data b).map (fun e => e.id % 2 ^ 32)) →
    st.dirty = ∅ → st.directory = dir → st.maxSize = m →
    st.lru.Nodup →
    (∀ n, n ∈ st.lru ↔ (st.embeddings n).isSome) →
    (∀ n, (st.embeddings n).isSome
        ↔ ∃ b ∈ L, n ∈ (data b).map (fun e => e.id % 2 ^ 32)) →
    st.lru.length ≤ L.sum (fun b => (data b).length) →
    (L ∪ (accesses.filterMap dir).toFinset).sum (fun b => (data b).length) ≤ m →
    ∃ stF flags, runAccesses blocks accesses st = some (stF, flags)
      ∧ flags.length = accesses.length
      ∧ flags.count true = ((accesses.filterMap dir).toFinset \ L).card := by
  intro accesses
  induction accesses with
  | nil =>
    intro L st _ _ _ _ _ _ _ _ _ _
    exact ⟨st, [], rfl, rfl, by simp⟩
  | cons i rest ih =>
    intro L st hblocks hacc hdirty hdirst hmax hnodup hlruiff hcache hlen hcap
    obtain ⟨b, hdb, hib⟩ := hacc i (List.mem_cons_self _ _)
    have hfm : (i :: rest).filterMap dir = b :: rest.filterMap dir := by
      rw [List.filterMap_cons, hdb]
    have hblocksr : ∀ b2 ∈ rest.filterMap dir, blocks b2 = some (data b2) := by
      intro b2 hb2
      exact hblocks b2 (by rw [hfm]; exact List.mem_cons_of_mem _ hb2)
    have haccr : ∀ j ∈ rest, ∃ b2, dir j = some b2
        ∧ j ∈ (data b2).map (fun e => e.id % 2 ^ 32) :=
      fun j hj => hacc j (List.mem_cons_of_mem _ hj)
    by_cases hc : (st.embeddings i).isSome
    · have hilru : i ∈ st.lru := (hlruiff i).mpr hc
      obtain ⟨e, he, hget⟩ := get_cached blocks i st hdirty hc hilru
      obtain ⟨b2, hb2L, hib2⟩ := (hcache i).mp hc
      have hb2 : b2 = b := by
        rw [List.mem_map] at hib2
        obtain ⟨e2, he2, hke⟩ := hib2
        have hd2 := hco b2 e2 he2
        rw [hke, hdb] at hd2
        exact (Option.some_inj.mp hd2).symm
      have hbL : b ∈ L := hb2 ▸ hb2L
      obtain ⟨stF, fl, hrun, hlenf, hcount⟩ := ih L
        { st with lru := i :: st.lru.erase i }
        hblocksr haccr hdirty hdirst hmax
        (List.nodup_cons.mpr ⟨hnodup.not_mem_erase, hnodup.erase _⟩)
        (by
          intro n
          dsimp only
          rw [mem_cons_erase hnodup hilru n]
          exact hlruiff n)
        hcache
        (by
          dsimp only
          rw [length_cons_erase hilru]
          exact hlen)
        (by
          refine le_trans (Finset.sum_le_sum_of_subset ?_) hcap
          intro x hx
          rw [Finset.mem_union] at hx ⊢
          rcases hx with hx | hx
          · exact Or.inl hx
          · right
            rw [hfm, List.toFinset_cons, Finset.mem_insert]
            exact Or.inr hx)
      refine ⟨stF, false :: fl, ?_, ?_, ?_⟩
      · rw [runAccesses_cons, hget]
        simp only [Option.some_bind]
        rw [hrun]
        rfl
      · simp [hlenf]
      · rw [hfm, List.toFinset_cons, Finset.insert_sdiff_of_mem _ hbL]
        rw [← hcount]
        simp [List.count_cons]
    · have hnone : st.embeddings i = none := Option.not_isSome_iff_eq_none.mp hc
      have hbL : b ∉ L := by
        intro hbin
        exact hc ((hcache i).mpr ⟨b, hbin, hib⟩)
      have hfresh : ∀ e ∈ data b, (e.id % 2 ^ 32) ∉ st.lru := by
        intro e heb hmem
        obtain ⟨b2, hb2L, hkb2⟩ := (hcache _).mp ((hlruiff _).mp hmem)
        rw [List.mem_map] at hkb2
        obtain ⟨e2, he2, hke⟩ := hkb2
        have h1 := hco b2 e2 he2
        have h2 := hco b e heb
        rw [hke, h2] at h1
        rw [Option.some_inj] at h1
        rw [h1] at hbL
        exact hbL hb2L
      have hsub : insert b L ⊆ L ∪ ((i :: rest).filterMap dir).toFinset := by
        intro x hx
        rw [Finset.mem_insert] at hx
        rw [Finset.mem_union]
        rcases hx with rfl | hx
        · right
          rw [hfm, List.toFinset_cons]
          exact Finset.mem_insert_self _ _
        · exact Or.inl hx
      have hfit : st.lru.length + (data b).length ≤ m := by
        have hs : (insert b L).sum (fun b2 => (data b2).length)
            ≤ (L ∪ ((i :: rest).filterMap dir).toFinset).sum
                (fun b2 => (data b2).length) :=
          Finset.sum_le_sum_of_subset hsub
        simp only [Finset.sum_insert hbL] at hs
        omega
      have hdbst : st.directory i = some b := by
        rw [hdirst]
        exact hdb
      have hblkb : blocks b = some (data b) :=
        hblocks b (by rw [hfm]; exact List.mem_cons_self _ _)
      obtain ⟨e, st2, hget, hsome2, hdirty2, hdir2, hmax2, hnodup2, hlru2, hlen2⟩ :=
        get_load blocks i st b (data b) hdirty hnone hdbst hblkb hnodup hfresh
          (hkeysAll b) (by rw [hmax]; exact hfit) hib
      obtain ⟨stF, fl, hrun, hlenf, hcount⟩ := ih (insert b L) st2
        hblocksr haccr hdirty2
        (by rw [hdir2]; exact hdirst)
        (by rw [hmax2]; exact hmax)
        hnodup2
        (by
          intro n
          rw [hlru2 n, hsome2 n, hlruiff n])
        (by
          intro n
          rw [hsome2 n]
          constructor
          · rintro (hn | hn)
            · exact ⟨b, Finset.mem_insert_self _ _, hn⟩
            · obtain ⟨b2, hb2, hn2⟩ := (hcache n).mp hn
              exact ⟨b2, Finset.mem_insert_of_mem hb2, hn2⟩
          · rintro ⟨b2, hb2, hn2⟩
            rw [Finset.mem_insert] at hb2
            rcases hb2 with rfl | hb2
            · exact Or.inl hn2
            · exact Or.inr ((hcache n).mpr ⟨b2, hb2, hn2⟩))
        (by
          rw [hlen2]
          simp only [Finset.sum_insert hbL]
          omega)
        (by
          rw [Finset.insert_union]
          rw [hfm, List.toFinset_cons, Finset.union_insert] at hcap
          exact hcap)
      refine ⟨stF, true :: fl, ?_, ?_, ?_⟩
      · rw [runAccesses_cons, hget]
        simp only [Option.some_bind]
        rw [hrun]
        rfl
      · simp [hlenf]
      · rw [hfm, List.toFinset_cons, card_insert_sdiff hbL]
        rw [← hcount]
        simp [List.count_cons]

/-- Claim C6: for every sequence of `EmbeddingCache.get` calls with no
dirty marks, over blocks whose records carry mutually distinct keys
coherent with the directory, if the working set (the distinct blocks
holding the requested ids) fits in `max_size` in total, the whole run
succeeds and the number of block loads from disk (the `true` flags)
equals the number of distinct blocks accessed — so each block is loaded
exactly once, on its first access, and every later `get` of an id in an
already-loaded block is served from memory. -/
theorem C6_lru_no_reloads
    (blocks : Nat → Option (List Embedding)) (dir : Nat → Option Nat)
    (data : Nat → List Embedding) (m : Nat) (accesses : List Nat)
    (st0 : CacheState)
    (hnew : EmbeddingCache.new dir m = some st0)
    (hco : ∀ b, ∀ e ∈ data b, dir (e.id % 2 ^ 32) = some b)
    (hkeysAll : ∀ b, ((data b).map (fun e => e.id % 2 ^ 32)).Nodup)
    (hblocks : ∀ b ∈ accesses.filterMap dir, blocks b = some (data b))
    (hacc : ∀ i ∈ accesses, ∃ b, dir i = some b
        ∧ i ∈ (data b).map (fun e => e.id % 2 ^ 32))
    (hcap : ((accesses.filterMap dir).toFinset).sum
        (fun b => (data b).length) ≤ m) :
    ∃ stF flags, runAccesses blocks accesses st0 = some (stF, flags)
      ∧ flags.length = accesses.length
      ∧ flags.count true = (workingBlocks dir accesses).length := by
  have hst0 : st0 = ⟨[], fun _ => none, ∅, dir, m⟩ := by
    unfold EmbeddingCache.new at hnew
    by_cases hlt : m < BLOCK_SIZE
    · rw [if_pos hlt] at hnew
      cases hnew
    · rw [if_neg hlt] at hnew
      exact (Option.some_inj.mp hnew).symm
  subst hst0
  obtain ⟨stF, fl, hrun, hlenf, hcount⟩ :=
    runAccesses_loads blocks dir data m hco hkeysAll accesses ∅
      ⟨[], fun _ => none, ∅, dir, m⟩ hblocks hacc rfl rfl rfl List.nodup_nil
      (by intro n; simp)
      (by intro n; simp)
      (by simp)
      (by rw [Finset.empty_union]; exact hcap)
  refine ⟨stF, fl, hrun, hlenf, ?_⟩
  rw [hcount, Finset.sdiff_empty]
  unfold workingBlocks
  rw [List.card_toFinset]

theorem C6_lru_no_reloads_witness :
    ∃ stF flags,
      runAccesses cacheBlocks [0, 1, 0, 1, 1]
        ⟨[], fun _ => none, ∅, cacheDir, 1024⟩ = some (stF, flags)
      ∧ flags.length = 5 ∧ flags.count true = 1 := by
  obtain ⟨stF, fl, hrun, hlenf, hcount⟩ :=
    C6_lru_no_reloads cacheBlocks cacheDir cacheData 1024 [0, 1, 0, 1, 1]
      ⟨[], fun _ => none, ∅, cacheDir, 1024⟩ rfl
      (by
        intro b e he
        by_cases hb : b = 0
        · subst hb
          have he2 : e ∈ cacheData 0 := he
          rw [show cacheData 0
              = [⟨0, ⟨"f", [], none⟩, []⟩, ⟨1, ⟨"g", [], none⟩, []⟩] from rfl,
            List.mem_cons, List.mem_cons] at he2
          rcases he2 with rfl | rfl | he2
          · decide
          · decide
          · cases he2
        · rw [show cacheData b = if b = 0 then _ else [] from rfl, if_neg hb] at he
          cases he)
      (by
        intro b
        by_cases hb : b = 0
        · subst hb
          decide
        · rw [show cacheData b = if b = 0 then _ else [] from rfl, if_neg hb]
          exact List.nodup_nil)
      (by decide)
      (by
        intro i hi
        rw [List.mem_cons, List.mem_cons, List.mem_cons, List.mem_cons,
          List.mem_cons] at hi
        rcases hi with rfl | rfl | rfl | rfl | rfl | hi
        · exact ⟨0, by decide, by decide⟩
        · exact ⟨0, by decide, by decide⟩
        · exact ⟨0, by decide, by decide⟩
        · exact ⟨0, by decide, by decide⟩
        · exact ⟨0, by decide, by decide⟩
        · cases hi)
      (by decide)
  refine ⟨stF, fl, hrun, by rw [hlenf]; decide, by rw [hcount]; decide⟩

end Dewey
